import Mathlib

/-!
# Knight's tour (`tour.cpp`): embedding and verification

The program searches for a closed knight's tour on the 8x8 board with Warnsdorff's
heuristic, random tie-breaking and up to 10000 restarts.

Modelling conventions.
* C++ `int` values are unbounded integers (`Int`); every coordinate the search
  itself produces lies within two steps of the board, so no `int` operation
  overflows there.
* The `uint64_t` bitset `traversed` is a natural number; the result of the
  left shift and OR is reduced modulo `2^64`.  The C++ shifts are defined only for
  a shift amount in `0..63`; for such amounts the model is exact.
* `pos_array_t` (an array of capacity 8 together with a `size`) is the list of its
  first `size` entries.
* The random source is a stream `draws : Nat → Nat`.  The `k`-th call of
  `distr(gen)` with range `[0, size - 1]` yields `draws k % size`; quantifying over
  all streams covers every outcome the distribution can produce.
-/

namespace KnightsTour

/-- Board side length (`constexpr int BOARD_SIZE{8}`). -/
def BOARD_SIZE : Int := 8

/-- A position (`class pos_t`): two `int` fields. -/
structure pos_t where
  row : Int
  col : Int
  deriving DecidableEq

namespace pos_t

/-- The member `operator==`: both coordinates agree. -/
def eq (p other : pos_t) : Bool :=
  p.row == other.row && p.col == other.col

/-- The member `operator+`: coordinate-wise sum. -/
def add (p other : pos_t) : pos_t :=
  { row := p.row + other.row, col := p.col + other.col }

/-- The member `valid()`: both coordinates lie in `[0, BOARD_SIZE)`. -/
def valid (p : pos_t) : Bool :=
  decide (p.row ≥ 0) && decide (p.row < BOARD_SIZE) &&
    decide (p.col ≥ 0) && decide (p.col < BOARD_SIZE)

end pos_t

/-- The table `KNIGHT_MOVES`, in declaration order. -/
def KNIGHT_MOVES : List pos_t :=
  [ ⟨-2, -1⟩, ⟨-2, 1⟩, ⟨-1, -2⟩, ⟨-1, 2⟩, ⟨1, -2⟩, ⟨1, 2⟩, ⟨2, -1⟩, ⟨2, 1⟩ ]

/-- The shift amount `pos.row * BOARD_SIZE + pos.col` used by `get` and `set`. -/
def bit_index (pos : pos_t) : Int :=
  pos.row * BOARD_SIZE + pos.col

/-- The class `Chessboard`: the current cell and the 64-bit visited set. -/
structure Chessboard where
  current : pos_t
  traversed : Nat
  deriving DecidableEq

namespace Chessboard

/-- The member `get`: `(traversed >> index) & 1`, converted to `bool`.  The source
calls it only on positions that passed `valid()`, whose index lies in `0..63`. -/
def get (chess : Chessboard) (pos : pos_t) : Bool :=
  ((chess.traversed >>> (bit_index pos).toNat) &&& 1) != 0

/-- The member `set`: `current = pos; traversed |= 1 << index`, a `uint64_t`
update.  Exact for an index in `0..63`; outside that range the C++ shift has no
defined result and the value given here carries no meaning. -/
def set (chess : Chessboard) (pos : pos_t) : Chessboard :=
  { current := pos
    traversed := (chess.traversed ||| (1 <<< (bit_index pos).toNat)) % 2 ^ 64 }

/-- The constructor `Chessboard(initial)`: members are initialised to
`current{initial}`, `traversed{0}` and the body calls `set(initial)`. -/
def init (initial : pos_t) : Chessboard :=
  set { current := initial, traversed := 0 } initial

/-- The member `get_current`. -/
def get_current (chess : Chessboard) : pos_t :=
  chess.current

/-- The member `reachable`: some knight move leads from `current` to `target`. -/
def reachable (chess : Chessboard) (target : pos_t) : Bool :=
  KNIGHT_MOVES.any (fun knight_move => (chess.current.add knight_move).eq target)

/-- The member `valid_moves(from)`: the loop over the 8 offsets, appending every
translated cell that is valid and not yet visited. -/
def valid_moves_from (chess : Chessboard) (origin : pos_t) : List pos_t :=
  KNIGHT_MOVES.foldl
    (fun moves knight_move =>
      let after_move := origin.add knight_move
      if after_move.valid && !chess.get after_move then moves ++ [after_move] else moves)
    []

/-- The member `valid_moves()`: the moves from the current cell. -/
def valid_moves (chess : Chessboard) : List pos_t :=
  chess.valid_moves_from chess.current

/-- The member `successful`: every one of the 64 bits is set. -/
def successful (chess : Chessboard) : Bool :=
  chess.traversed == 0xFFFFFFFFFFFFFFFF

end Chessboard

/-- The constant `std::numeric_limits<int>::max()`. -/
def INT_MAX : Nat := 2147483647

/-- First inner loop of the selection step: `move_count[i]` is the number of
onward moves of candidate `i`, computed on the board before the move. -/
def move_counts (chess : Chessboard) (candidate_moves : List pos_t) : List Nat :=
  candidate_moves.map (fun c => (chess.valid_moves_from c).length)

/-- The running minimum `min` of the first inner loop, started at `INT_MAX`. -/
def min_move_count (move_count : List Nat) : Nat :=
  move_count.foldl (fun min mc => if min > mc then mc else min) INT_MAX

/-- Second inner loop of the selection step: the candidates whose count equals
`min`, in candidate order. -/
def best_moves_of (candidate_moves : List pos_t) (move_count : List Nat) (min : Nat) :
    List pos_t :=
  (candidate_moves.zip move_count).foldl
    (fun best cm => if cm.2 == min then best ++ [cm.1] else best)
    []

/-- The `pos_array_t best_moves` built by one selection step on `chess`. -/
def best_moves (chess : Chessboard) : List pos_t :=
  let candidate_moves := chess.valid_moves
  let move_count := move_counts chess candidate_moves
  best_moves_of candidate_moves move_count (min_move_count move_count)

/-- The value `best_moves.array[distr(gen)]` for the raw draw `draw`. -/
def best_move (chess : Chessboard) (draw : Nat) : pos_t :=
  let best := best_moves chess
  best.getD (draw % best.length) ⟨0, 0⟩

/-- How the inner `for` loop of one attempt is left. -/
inductive Outcome where
  /-- The statement `return moves` was executed. -/
  | returned (moves : List pos_t)
  /-- Control passes to the next iteration of the outer loop with this path and
  this many draws consumed (after `moves.clear(); break`, or after the loop
  condition failed). -/
  | next_attempt (moves : List pos_t) (n : Nat)
  deriving DecidableEq

/-- The inner loop `for (int i{0}; i < 64; ++i)`: `fuel` is the number of
iterations still to run, `n` the number of draws consumed so far. -/
def inner_loop (draws : Nat → Nat) (INITIAL_POS : pos_t) :
    Nat → Chessboard → List pos_t → Nat → Outcome
  | 0, _, moves, n => Outcome.next_attempt moves n
  | fuel + 1, chess, moves, n =>
    if chess.valid_moves.length ≠ 0 then
      let best := best_move chess (draws n)
      inner_loop draws INITIAL_POS fuel (chess.set best) (moves ++ [best]) (n + 1)
    else if chess.successful && chess.reachable INITIAL_POS then
      Outcome.returned moves
    else
      Outcome.next_attempt [] n

/-- The outer loop `for (int i{0}; i < 10000; ++i)` followed by the final
`return moves`: `attempts` is the number of iterations still to run. -/
def outer_loop (draws : Nat → Nat) (INITIAL_POS : pos_t) :
    Nat → List pos_t → Nat → List pos_t
  | 0, moves, _ => moves
  | attempts + 1, moves, n =>
    match inner_loop draws INITIAL_POS 64 (Chessboard.init INITIAL_POS) moves n with
    | Outcome.returned path => path
    | Outcome.next_attempt moves1 n1 => outer_loop draws INITIAL_POS attempts moves1 n1

/-- The function `knights_tour(INITIAL_POS)` run with the draw stream `draws`. -/
def knights_tour (draws : Nat → Nat) (INITIAL_POS : pos_t) : List pos_t :=
  outer_loop draws INITIAL_POS 10000 [] 0

/-! ## Notions used to state the properties -/

/-- Cell `b` is cell `a` translated by one of the 8 offsets of `KNIGHT_MOVES`. -/
def knight_step (a b : pos_t) : Prop :=
  ∃ m ∈ KNIGHT_MOVES, a.add m = b

/-- Whether two cells are one knight move apart can be decided by running through
the 8 offsets. -/
instance knight_step_decidable (a b : pos_t) : Decidable (knight_step a b) :=
  List.decidableBEx (fun m => a.add m = b) KNIGHT_MOVES

/-- The 64 cells of the 8x8 board, row by row. -/
def all_cells : List pos_t :=
  (List.range 8).flatMap (fun (r : Nat) =>
    (List.range 8).map (fun (c : Nat) => pos_t.mk (Int.ofNat r) (Int.ofNat c)))

/-- The closed-tour property of a path `P` from `start`: in `start, P[0], ..., P[last]`
every board cell occurs exactly once and nothing else occurs, and in
`start, P[0], ..., P[last], start` every consecutive pair is one knight move apart. -/
def closed_tour (start : pos_t) (P : List pos_t) : Prop :=
  (∀ p : pos_t, p.valid = true → (start :: P).count p = 1) ∧
    (∀ p ∈ start :: P, p.valid = true) ∧
    List.Chain' knight_step (start :: P ++ [start])

/-- The boards obtained from the constructor on an in-bounds start by any number
of `set` calls on in-bounds positions. -/
inductive Chessboard.Built : Chessboard → Prop where
  | init (start : pos_t) (h : start.valid = true) : Chessboard.Built (Chessboard.init start)
  | set (chess : Chessboard) (pos : pos_t) (hb : Chessboard.Built chess)
      (h : pos.valid = true) : Chessboard.Built (chess.set pos)

/-- The number of board cells that `get` reports as visited. -/
def visited_count (chess : Chessboard) : Nat :=
  (all_cells.filter chess.get).length

/-- The outcomes of the successive attempts made by the outer loop, in order, for
`attempts` remaining iterations. -/
def attempt_outcomes (draws : Nat → Nat) (INITIAL_POS : pos_t) :
    Nat → List pos_t → Nat → List Outcome
  | 0, _, _ => []
  | attempts + 1, moves, n =>
    match inner_loop draws INITIAL_POS 64 (Chessboard.init INITIAL_POS) moves n with
    | Outcome.returned path => [Outcome.returned path]
    | Outcome.next_attempt moves1 n1 =>
      Outcome.next_attempt moves1 n1 :: attempt_outcomes draws INITIAL_POS attempts moves1 n1

/-- An attempt succeeded: it ended in the statement `return moves`. -/
def Outcome.succeeded : Outcome → Bool
  | Outcome.returned _ => true
  | Outcome.next_attempt _ _ => false

/-- A draw stream under which the first attempt from `(1,1)` closes a tour. -/
def tour_draws (k : Nat) : Nat :=
  [1, 0, 0, 0, 0, 0, 0, 0, 0, 0, 0, 0, 0, 0, 0, 0, 0, 0, 0, 0, 0, 1, 1, 0, 0, 0, 0, 1, 0, 0, 0,
    0, 0, 0, 0, 1, 1, 0, 0, 0, 0, 0, 0, 1, 0, 0, 0, 0, 0, 0, 0, 0, 1, 0, 0, 0, 1, 0, 0, 0, 1, 0,
    0].getD k 0

/-- The loop invariant of one attempt: the board is exactly the record of the
path walked so far from `start`. -/
structure AttemptInv (start : pos_t) (chess : Chessboard) (moves : List pos_t) : Prop where
  current_eq : chess.current = (start :: moves).getLast (List.cons_ne_nil _ _)
  visited_iff : ∀ p : pos_t, p.valid = true → (chess.get p = true ↔ p ∈ start :: moves)
  nodup : (start :: moves).Nodup
  all_valid : ∀ p ∈ start :: moves, p.valid = true
  chain : List.Chain' knight_step (start :: moves)

/-- What an attempt from an in-bounds start can end in: a returned closed tour of
63 moves, or an empty path handed to the next attempt. -/
def Outcome.sound (start : pos_t) : Outcome → Prop
  | Outcome.returned path => path.length = 63 ∧ closed_tour start path
  | Outcome.next_attempt moves _ => moves = []

/-- The variables of one attempt at the head of an iteration of the inner loop:
the number of iterations still to run (`64 - i`), the board, the path, and the
number of draws consumed so far. -/
structure LoopState where
  fuel : Nat
  chess : Chessboard
  moves : List pos_t
  n : Nat

/-- The states at the head of the iterations that the inner loop executes, in
order; the list ends with the iteration that finds no candidate move, or when
the loop condition fails. -/
def inner_states (draws : Nat → Nat) : Nat → Chessboard → List pos_t → Nat → List LoopState
  | 0, _, _, _ => []
  | fuel + 1, chess, moves, n =>
    { fuel := fuel + 1, chess := chess, moves := moves, n := n } ::
      (if chess.valid_moves.length ≠ 0 then
        let best := best_move chess (draws n)
        inner_states draws fuel (chess.set best) (moves ++ [best]) (n + 1)
      else [])

/-- The attempts made by the outer loop, in order, each as the list of its
iteration states, for `attempts` remaining iterations of the outer loop. -/
def attempt_runs (draws : Nat → Nat) (INITIAL_POS : pos_t) :
    Nat → List pos_t → Nat → List (List LoopState)
  | 0, _, _ => []
  | attempts + 1, moves, n =>
    inner_states draws 64 (Chessboard.init INITIAL_POS) moves n ::
      match inner_loop draws INITIAL_POS 64 (Chessboard.init INITIAL_POS) moves n with
      | Outcome.returned _ => []
      | Outcome.next_attempt moves1 n1 => attempt_runs draws INITIAL_POS attempts moves1 n1

/-- The onward degree of a candidate `c`: the size of `valid_moves(c)` on the
board before the move. -/
def degree (chess : Chessboard) (c : pos_t) : Nat :=
  (chess.valid_moves_from c).length

/-- The candidate list in the spec's words: translate the origin by each of the
8 offsets in their fixed order and keep the results that are valid and not
visited. -/
def candidate_moves_spec (chess : Chessboard) (origin : pos_t) : List pos_t :=
  (KNIGHT_MOVES.map (fun offset => origin.add offset)).filter
    (fun q => q.valid && !chess.get q)

/-- The `int` computations the program performs on a start position are defined
(no signed overflow): `row * 8` and the translations by the 8 offsets stay within
`[-2^31, 2^31 - 1]`. -/
def pos_t.int_defined (p : pos_t) : Bool :=
  decide (-268435456 ≤ p.row) && decide (p.row ≤ 268435455) &&
    decide (-2147483646 ≤ p.col) && decide (p.col ≤ 2147483645)

/-! ## Positions and the bitset -/

theorem valid_iff (p : pos_t) :
    p.valid = true ↔ 0 ≤ p.row ∧ p.row < 8 ∧ 0 ≤ p.col ∧ p.col < 8 := by
  simp [pos_t.valid, BOARD_SIZE, and_assoc]

theorem bit_index_range (p : pos_t) (h : p.valid = true) :
    0 ≤ bit_index p ∧ bit_index p < 64 := by
  rw [valid_iff] at h
  simp only [bit_index, BOARD_SIZE]
  omega

theorem bit_index_toNat_lt (p : pos_t) (h : p.valid = true) : (bit_index p).toNat < 64 := by
  have := bit_index_range p h
  omega

theorem bit_index_inj (p q : pos_t) (hp : p.valid = true) (hq : q.valid = true)
    (h : (bit_index p).toNat = (bit_index q).toNat) : p = q := by
  rw [valid_iff] at hp hq
  simp only [bit_index, BOARD_SIZE] at h
  cases p with
  | mk pr pc =>
    cases q with
    | mk qr qc =>
      simp only at hp hq h
      simp only [pos_t.mk.injEq]
      omega

theorem get_eq_testBit (chess : Chessboard) (pos : pos_t) :
    chess.get pos = chess.traversed.testBit (bit_index pos).toNat := by
  simp only [Chessboard.get, Nat.testBit, Nat.land_comm]

theorem set_current (chess : Chessboard) (pos : pos_t) : (chess.set pos).current = pos := rfl

theorem set_traversed_lt (chess : Chessboard) (pos : pos_t) :
    (chess.set pos).traversed < 2 ^ 64 :=
  Nat.mod_lt _ (by decide)

theorem set_testBit (chess : Chessboard) (pos : pos_t) (j : Nat) :
    (chess.set pos).traversed.testBit j =
      (decide (j < 64) && (chess.traversed.testBit j || decide ((bit_index pos).toNat = j))) := by
  simp only [Chessboard.set, Nat.testBit_mod_two_pow, Nat.testBit_or, Nat.one_shiftLeft,
    Nat.testBit_two_pow]

theorem foldl_append_filter {α β : Type} (f : α → β) (P : β → Bool) (l : List α) (init : List β) :
    l.foldl (fun acc x => if P (f x) then acc ++ [f x] else acc) init
      = init ++ (l.map f).filter P := by
  induction l generalizing init with
  | nil => simp
  | cons x xs ih =>
    simp only [List.foldl_cons, List.map_cons, List.filter_cons, ih]
    split <;> simp

theorem valid_moves_from_eq (chess : Chessboard) (origin : pos_t) :
    chess.valid_moves_from origin
      = (KNIGHT_MOVES.map origin.add).filter (fun q => q.valid && !chess.get q) := by
  have h := foldl_append_filter origin.add (fun q => q.valid && !chess.get q) KNIGHT_MOVES []
  simpa [Chessboard.valid_moves_from] using h

theorem mem_valid_moves_from (chess : Chessboard) (origin p : pos_t) :
    p ∈ chess.valid_moves_from origin ↔
      (∃ m ∈ KNIGHT_MOVES, origin.add m = p) ∧ p.valid = true ∧ chess.get p = false := by
  rw [valid_moves_from_eq]
  simp [List.mem_filter]

theorem valid_moves_from_length_le (chess : Chessboard) (origin : pos_t) :
    (chess.valid_moves_from origin).length ≤ 8 := by
  rw [valid_moves_from_eq]
  exact (List.length_filter_le _ _).trans (by simp [KNIGHT_MOVES])

/-! ## The selection step -/

/-- The running minimum never exceeds its starting value. -/
theorem foldl_min_le_init (l : List Nat) (init : Nat) :
    l.foldl (fun min mc => if min > mc then mc else min) init ≤ init := by
  induction l generalizing init with
  | nil => simp
  | cons x xs ih =>
    simp only [List.foldl_cons]
    split
    · exact (ih x).trans (by omega)
    · exact ih init

/-- The running minimum is a lower bound of the list. -/
theorem foldl_min_le_mem (l : List Nat) (init x : Nat) (hx : x ∈ l) :
    l.foldl (fun min mc => if min > mc then mc else min) init ≤ x := by
  induction l generalizing init with
  | nil => simp at hx
  | cons y ys ih =>
    simp only [List.foldl_cons]
    rcases List.mem_cons.1 hx with rfl | h
    · split
      · exact foldl_min_le_init ys _
      · exact (foldl_min_le_init ys _).trans (by omega)
    · exact ih _ h

/-- The running minimum is its starting value or an element of the list. -/
theorem foldl_min_mem (l : List Nat) (init : Nat) :
    l.foldl (fun min mc => if min > mc then mc else min) init = init ∨
      l.foldl (fun min mc => if min > mc then mc else min) init ∈ l := by
  induction l generalizing init with
  | nil => simp
  | cons y ys ih =>
    simp only [List.foldl_cons]
    split
    · rcases ih y with h | h
      · right; rw [h]; exact List.mem_cons_self _ _
      · right; exact List.mem_cons_of_mem _ h
    · rcases ih init with h | h
      · left; exact h
      · right; exact List.mem_cons_of_mem _ h

theorem min_move_count_le (l : List Nat) (x : Nat) (hx : x ∈ l) : min_move_count l ≤ x :=
  foldl_min_le_mem l INT_MAX x hx

theorem min_move_count_mem (l : List Nat) (x : Nat) (hx : x ∈ l) (hlt : x < INT_MAX) :
    min_move_count l ∈ l := by
  rcases foldl_min_mem l INT_MAX with h | h
  · have := min_move_count_le l x hx
    unfold min_move_count at this
    omega
  · exact h

theorem foldl_append_filter_map {α β : Type} (f : α → β) (P : α → Bool) (l : List α)
    (init : List β) :
    l.foldl (fun acc x => if P x then acc ++ [f x] else acc) init
      = init ++ (l.filter P).map f := by
  induction l generalizing init with
  | nil => simp
  | cons x xs ih =>
    simp only [List.foldl_cons, List.filter_cons, ih]
    split <;> simp

theorem best_moves_of_eq (candidate_moves : List pos_t) (move_count : List Nat) (min : Nat) :
    best_moves_of candidate_moves move_count min
      = ((candidate_moves.zip move_count).filter (fun cm => cm.2 == min)).map Prod.fst := by
  have h := foldl_append_filter_map (fun cm : pos_t × Nat => cm.1) (fun cm => cm.2 == min)
    (candidate_moves.zip move_count) []
  simpa [best_moves_of] using h

theorem zip_map_filter_fst {α : Type} (g : α → Nat) (m : Nat) (l : List α) :
    ((l.zip (l.map g)).filter (fun cm => cm.2 == m)).map Prod.fst
      = l.filter (fun c => g c == m) := by
  induction l with
  | nil => simp
  | cons x xs ih =>
    simp only [List.map_cons, List.zip_cons_cons, List.filter_cons]
    split <;> simp [ih]

theorem best_moves_eq (chess : Chessboard) :
    best_moves chess = chess.valid_moves.filter (fun c =>
      (chess.valid_moves_from c).length == min_move_count (move_counts chess chess.valid_moves)) := by
  simp only [best_moves, best_moves_of_eq, move_counts]
  exact zip_map_filter_fst _ _ _

theorem mem_best_moves (chess : Chessboard) (p : pos_t) :
    p ∈ best_moves chess ↔
      p ∈ chess.valid_moves ∧
        (chess.valid_moves_from p).length = min_move_count (move_counts chess chess.valid_moves) := by
  rw [best_moves_eq]
  simp [List.mem_filter]

theorem best_moves_ne_nil (chess : Chessboard) (h : chess.valid_moves ≠ []) :
    best_moves chess ≠ [] := by
  obtain ⟨c, hc⟩ := List.exists_mem_of_ne_nil _ h
  have hmem : (chess.valid_moves_from c).length ∈ move_counts chess chess.valid_moves :=
    List.mem_map.2 ⟨c, hc, rfl⟩
  have hlt : (chess.valid_moves_from c).length < INT_MAX :=
    Nat.lt_of_le_of_lt (valid_moves_from_length_le chess c) (by decide)
  have hmin := min_move_count_mem _ _ hmem hlt
  obtain ⟨b, hb, hbeq⟩ := List.mem_map.1 hmin
  exact List.ne_nil_of_mem ((mem_best_moves chess b).2 ⟨hb, hbeq⟩)

theorem best_move_mem_best_moves (chess : Chessboard) (draw : Nat)
    (h : chess.valid_moves ≠ []) : best_move chess draw ∈ best_moves chess := by
  have hne := best_moves_ne_nil chess h
  have hpos : 0 < (best_moves chess).length := List.length_pos.2 hne
  have hlt : draw % (best_moves chess).length < (best_moves chess).length := Nat.mod_lt _ hpos
  simp only [best_move]
  rw [List.getD_eq_getElem _ _ hlt]
  exact List.getElem_mem _

theorem best_move_mem_valid_moves (chess : Chessboard) (draw : Nat)
    (h : chess.valid_moves ≠ []) : best_move chess draw ∈ chess.valid_moves :=
  ((mem_best_moves chess _).1 (best_move_mem_best_moves chess draw h)).1

/-! ## The invariant of one attempt -/

theorem pos_eq_iff (p q : pos_t) : p.eq q = true ↔ p = q := by
  cases p; cases q
  simp [pos_t.eq]

theorem mem_all_cells (p : pos_t) : p ∈ all_cells ↔ p.valid = true := by
  rw [valid_iff]
  simp only [all_cells, List.mem_flatMap, List.mem_map, List.mem_range]
  constructor
  · rintro ⟨r, hr, c, hc, rfl⟩
    simp only [Int.ofNat_eq_coe]
    omega
  · intro h
    refine ⟨p.row.toNat, by omega, p.col.toNat, by omega, ?_⟩
    cases p with
    | mk pr pc =>
      simp only at h
      simp only [pos_t.mk.injEq, Int.ofNat_eq_coe]
      omega

theorem all_cells_length : all_cells.length = 64 := by decide

theorem all_cells_nodup : all_cells.Nodup := by decide

theorem length_le_of_valid (l : List pos_t) (hn : l.Nodup) (hv : ∀ p ∈ l, p.valid = true) :
    l.length ≤ 64 := by
  have hsub : l ⊆ all_cells := fun p hp => (mem_all_cells p).2 (hv p hp)
  have := (List.subperm_of_subset hn hsub).length_le
  rwa [all_cells_length] at this

theorem length_ge_of_cover (l : List pos_t) (hc : ∀ p : pos_t, p.valid = true → p ∈ l) :
    64 ≤ l.length := by
  have hsub : all_cells ⊆ l := fun p hp => hc p ((mem_all_cells p).1 hp)
  have := (List.subperm_of_subset all_cells_nodup hsub).length_le
  rwa [all_cells_length] at this

theorem init_current (start : pos_t) : (Chessboard.init start).current = start := rfl

theorem init_get (start p : pos_t) (hs : start.valid = true) (hp : p.valid = true) :
    (Chessboard.init start).get p = true ↔ p = start := by
  rw [get_eq_testBit, Chessboard.init, set_testBit]
  have hlt := bit_index_toNat_lt p hp
  simp only [Nat.zero_testBit, Bool.false_or, Bool.and_eq_true, decide_eq_true_eq]
  constructor
  · rintro ⟨_, h⟩
    exact (bit_index_inj start p hs hp h).symm
  · rintro rfl
    exact ⟨hlt, rfl⟩

theorem set_get (chess : Chessboard) (pos p : pos_t) (hpos : pos.valid = true)
    (hp : p.valid = true) :
    (chess.set pos).get p = true ↔ (chess.get p = true ∨ p = pos) := by
  rw [get_eq_testBit, get_eq_testBit, set_testBit]
  have hlt := bit_index_toNat_lt p hp
  simp only [Bool.and_eq_true, Bool.or_eq_true, decide_eq_true_eq]
  constructor
  · rintro ⟨_, h | h⟩
    · exact Or.inl h
    · exact Or.inr (bit_index_inj pos p hpos hp h).symm
  · rintro (h | rfl)
    · exact ⟨hlt, Or.inl h⟩
    · exact ⟨hlt, Or.inr rfl⟩

theorem attemptInv_init (start : pos_t) (hs : start.valid = true) :
    AttemptInv start (Chessboard.init start) [] where
  current_eq := rfl
  visited_iff := fun p hp => by
    rw [init_get start p hs hp]
    simp
  nodup := by simp
  all_valid := by
    intro p hp
    simp only [List.mem_singleton] at hp
    rw [hp]
    exact hs
  chain := by simp

theorem attemptInv_step (start : pos_t) (chess : Chessboard) (moves : List pos_t)
    (inv : AttemptInv start chess moves) (b : pos_t) (hb : b ∈ chess.valid_moves) :
    AttemptInv start (chess.set b) (moves ++ [b]) := by
  obtain ⟨hstep, hbv, hbg⟩ := (mem_valid_moves_from chess chess.current b).1 hb
  have hnot : b ∉ start :: moves := by
    intro hmem
    have := (inv.visited_iff b hbv).2 hmem
    rw [hbg] at this
    exact Bool.false_ne_true this
  have hcons : start :: (moves ++ [b]) = (start :: moves) ++ [b] := rfl
  refine ⟨?_, ?_, ?_, ?_, ?_⟩
  · simp only [hcons, List.getLast_append_singleton]
    rfl
  · intro p hp
    rw [set_get chess b p hbv hp, inv.visited_iff p hp, hcons]
    simp only [List.mem_append, List.mem_singleton]
  · rw [hcons]
    exact List.nodup_append.2 ⟨inv.nodup, by simp, by
      intro x hx hx2
      simp only [List.mem_singleton] at hx2
      exact hnot (hx2 ▸ hx)⟩
  · intro p hp
    rw [hcons] at hp
    rcases List.mem_append.1 hp with h | h
    · exact inv.all_valid p h
    · simp only [List.mem_singleton] at h
      rw [h]
      exact hbv
  · rw [hcons]
    refine List.Chain'.append inv.chain (by simp) ?_
    intro x hx y hy
    rw [List.getLast?_eq_getLast _ (List.cons_ne_nil _ _)] at hx
    simp only [Option.mem_def, Option.some.injEq] at hx
    simp only [List.head?_cons, Option.mem_def, Option.some.injEq] at hy
    rw [← hx, ← hy, ← inv.current_eq]
    exact hstep

/-! ## Soundness of the loops -/

theorem successful_get (chess : Chessboard) (h : chess.successful = true) (p : pos_t)
    (hp : p.valid = true) : chess.get p = true := by
  have ht : chess.traversed = 2 ^ 64 - 1 := by
    simpa [Chessboard.successful] using h
  rw [get_eq_testBit, ht, Nat.testBit_two_pow_sub_one]
  exact decide_eq_true (bit_index_toNat_lt p hp)

theorem reachable_iff (chess : Chessboard) (target : pos_t) :
    chess.reachable target = true ↔ knight_step chess.current target := by
  simp only [Chessboard.reachable, List.any_eq_true, pos_eq_iff, knight_step]

theorem closed_tour_of_inv (start : pos_t) (chess : Chessboard) (moves : List pos_t)
    (inv : AttemptInv start chess moves) (hs : chess.successful = true)
    (hr : chess.reachable start = true) :
    moves.length = 63 ∧ closed_tour start moves := by
  have hcover : ∀ p : pos_t, p.valid = true → p ∈ start :: moves := fun p hp =>
    (inv.visited_iff p hp).1 (successful_get chess hs p hp)
  have hge := length_ge_of_cover _ hcover
  have hle := length_le_of_valid _ inv.nodup inv.all_valid
  simp only [List.length_cons] at hge hle
  refine ⟨by omega, fun p hp => List.count_eq_one_of_mem inv.nodup (hcover p hp),
    inv.all_valid, ?_⟩
  have hcons : start :: moves ++ [start] = (start :: moves) ++ [start] := rfl
  rw [hcons]
  refine List.Chain'.append inv.chain (by simp) ?_
  intro x hx y hy
  rw [List.getLast?_eq_getLast _ (List.cons_ne_nil _ _)] at hx
  simp only [Option.mem_def, Option.some.injEq] at hx
  simp only [List.head?_cons, Option.mem_def, Option.some.injEq] at hy
  rw [← hx, ← hy, ← inv.current_eq]
  exact (reachable_iff chess start).1 hr

theorem inner_loop_sound (draws : Nat → Nat) (start : pos_t) :
    ∀ (fuel : Nat) (chess : Chessboard) (moves : List pos_t) (n : Nat),
      AttemptInv start chess moves → moves.length + fuel = 64 → 0 < fuel →
      (inner_loop draws start fuel chess moves n).sound start := by
  intro fuel
  induction fuel with
  | zero => intro _ _ _ _ _ h; exact absurd h (Nat.lt_irrefl 0)
  | succ fuel ih =>
    intro chess moves n inv hlen _
    rw [inner_loop]
    split
    · next hne =>
      have hvm : chess.valid_moves ≠ [] := fun h => hne (by rw [h]; rfl)
      have hmem := best_move_mem_valid_moves chess (draws n) hvm
      have inv1 := attemptInv_step start chess moves inv _ hmem
      have hle := length_le_of_valid _ inv1.nodup inv1.all_valid
      simp only [List.length_cons, List.length_append, List.length_nil] at hle
      exact ih _ _ _ inv1 (by simp only [List.length_append, List.length_cons, List.length_nil]; omega)
        (by omega)
    · split
      · next hsr =>
        simp only [Bool.and_eq_true] at hsr
        exact closed_tour_of_inv start chess moves inv hsr.1 hsr.2
      · rfl

theorem outer_loop_sound (draws : Nat → Nat) (start : pos_t) (hs : start.valid = true) :
    ∀ (attempts n : Nat),
      outer_loop draws start attempts [] n = [] ∨
        ((outer_loop draws start attempts [] n).length = 63 ∧
          closed_tour start (outer_loop draws start attempts [] n)) := by
  intro attempts
  induction attempts with
  | zero => intro n; left; rfl
  | succ attempts ih =>
    intro n
    have h := inner_loop_sound draws start 64 (Chessboard.init start) [] n
      (attemptInv_init start hs) rfl (by decide)
    rw [outer_loop]
    cases hout : inner_loop draws start 64 (Chessboard.init start) [] n with
    | returned path =>
      rw [hout] at h
      right
      exact h
    | next_attempt moves1 n1 =>
      rw [hout] at h
      simp only [Outcome.sound] at h
      subst h
      exact ih n1

theorem knights_tour_sound (draws : Nat → Nat) (start : pos_t) (hs : start.valid = true) :
    knights_tour draws start = [] ∨
      ((knights_tour draws start).length = 63 ∧ closed_tour start (knights_tour draws start)) :=
  outer_loop_sound draws start hs 10000 0

/-! ## Exhaustion of the attempts, and two evaluated runs -/

theorem outer_loop_exhausted (draws : Nat → Nat) (start : pos_t) (hs : start.valid = true) :
    ∀ (attempts n : Nat),
      (∀ o ∈ attempt_outcomes draws start attempts [] n, o.succeeded = false) →
      outer_loop draws start attempts [] n = [] := by
  intro attempts
  induction attempts with
  | zero => intro n _; rfl
  | succ attempts ih =>
    intro n hfail
    have h := inner_loop_sound draws start 64 (Chessboard.init start) [] n
      (attemptInv_init start hs) rfl (by decide)
    rw [attempt_outcomes] at hfail
    rw [outer_loop]
    cases hout : inner_loop draws start 64 (Chessboard.init start) [] n with
    | returned path =>
      rw [hout] at hfail
      have := hfail (Outcome.returned path) (List.mem_singleton.2 rfl)
      simp [Outcome.succeeded] at this
    | next_attempt moves1 n1 =>
      rw [hout] at h hfail
      simp only [Outcome.sound] at h
      subst h
      exact ih n1 (fun o ho => hfail o (List.mem_cons_of_mem _ ho))

/-- Whether an attempt succeeds depends neither on the path accumulated so far
nor, under a constant draw stream, on the number of draws consumed. -/
theorem inner_loop_succeeded_const (d : Nat) (start : pos_t) :
    ∀ (fuel : Nat) (chess : Chessboard) (moves : List pos_t) (n : Nat),
      (inner_loop (fun _ => d) start fuel chess moves n).succeeded
        = (inner_loop (fun _ => d) start fuel chess [] 0).succeeded := by
  intro fuel
  induction fuel with
  | zero => intro _ _ _; rfl
  | succ fuel ih =>
    intro chess moves n
    rw [inner_loop, inner_loop]
    split
    · rw [ih _ (moves ++ _) (n + 1), ih _ ([] ++ _) (0 + 1)]
    · split <;> rfl

theorem attempt_outcomes_const_failed (d : Nat) (start : pos_t)
    (h : (inner_loop (fun _ => d) start 64 (Chessboard.init start) [] 0).succeeded = false) :
    ∀ (attempts : Nat) (moves : List pos_t) (n : Nat),
      ∀ o ∈ attempt_outcomes (fun _ => d) start attempts moves n, o.succeeded = false := by
  intro attempts
  induction attempts with
  | zero => intro _ _ o ho; simp [attempt_outcomes] at ho
  | succ attempts ih =>
    intro moves n o ho
    have hk := inner_loop_succeeded_const d start 64 (Chessboard.init start) moves n
    rw [h] at hk
    rw [attempt_outcomes] at ho
    cases hout : inner_loop (fun _ => d) start 64 (Chessboard.init start) moves n with
    | returned path =>
      rw [hout] at hk
      simp [Outcome.succeeded] at hk
    | next_attempt moves1 n1 =>
      rw [hout] at ho hk
      rcases List.mem_cons.1 ho with rfl | ho1
      · exact hk
      · exact ih moves1 n1 o ho1

theorem first_attempt_zero_draws :
    inner_loop (fun _ => 0) ⟨1, 1⟩ 64 (Chessboard.init ⟨1, 1⟩) [] 0
      = Outcome.next_attempt [] 63 := by decide

theorem knights_tour_tour_draws :
    knights_tour tour_draws ⟨1, 1⟩ =
      [⟨3,0⟩, ⟨5,1⟩, ⟨7,0⟩, ⟨6,2⟩, ⟨5,0⟩, ⟨7,1⟩, ⟨6,3⟩, ⟨7,5⟩, ⟨6,7⟩, ⟨4,6⟩, ⟨2,7⟩, ⟨0,6⟩, ⟨1,4⟩,
        ⟨0,2⟩, ⟨1,0⟩, ⟨3,1⟩, ⟨1,2⟩, ⟨0,0⟩, ⟨2,1⟩, ⟨4,0⟩, ⟨6,1⟩, ⟨7,3⟩, ⟨5,4⟩, ⟨4,2⟩, ⟨2,3⟩, ⟨0,4⟩,
        ⟨1,6⟩, ⟨3,7⟩, ⟨2,5⟩, ⟨1,7⟩, ⟨0,5⟩, ⟨1,3⟩, ⟨0,1⟩, ⟨2,0⟩, ⟨3,2⟩, ⟨4,4⟩, ⟨5,6⟩, ⟨7,7⟩, ⟨6,5⟩,
        ⟨5,7⟩, ⟨7,6⟩, ⟨6,4⟩, ⟨5,2⟩, ⟨6,0⟩, ⟨7,2⟩, ⟨5,3⟩, ⟨4,1⟩, ⟨3,3⟩, ⟨4,5⟩, ⟨6,6⟩, ⟨7,4⟩, ⟨5,5⟩,
        ⟨4,7⟩, ⟨3,5⟩, ⟨4,3⟩, ⟨2,2⟩, ⟨3,4⟩, ⟨2,6⟩, ⟨0,7⟩, ⟨1,5⟩, ⟨3,6⟩, ⟨2,4⟩, ⟨0,3⟩] := by
  decide

/-! ## The tour contract -/

/-- C1: for an in-bounds start and any draw stream, a non-empty result `P` of
`knights_tour` has 63 entries, `start, P[0], ..., P[62]` contains every board
cell exactly once and only board cells, and every consecutive pair of
`start, P[0], ..., P[62], start` differs by an offset of `KNIGHT_MOVES`. -/
theorem knights_tour_closed (draws : Nat → Nat) (start : pos_t) (hs : start.valid = true)
    (hne : knights_tour draws start ≠ []) :
    (knights_tour draws start).length = 63 ∧ closed_tour start (knights_tour draws start) := by
  rcases knights_tour_sound draws start hs with h | h
  · exact absurd h hne
  · exact h

theorem knights_tour_closed_witness :
    pos_t.valid ⟨1, 1⟩ = true ∧ knights_tour tour_draws ⟨1, 1⟩ ≠ [] ∧
      (knights_tour tour_draws ⟨1, 1⟩).length = 63 ∧
      closed_tour ⟨1, 1⟩ (knights_tour tour_draws ⟨1, 1⟩) :=
  have hne : knights_tour tour_draws ⟨1, 1⟩ ≠ [] := by decide
  ⟨by decide, hne, knights_tour_closed tour_draws ⟨1, 1⟩ (by decide) hne⟩

/-- C2: for an in-bounds start and any draw stream, the path returned by
`knights_tour` has length exactly 63 or exactly 0. -/
theorem knights_tour_length (draws : Nat → Nat) (start : pos_t) (hs : start.valid = true) :
    (knights_tour draws start).length = 63 ∨ (knights_tour draws start).length = 0 := by
  rcases knights_tour_sound draws start hs with h | h
  · right
    rw [h]
    rfl
  · left
    exact h.1

theorem knights_tour_length_witness :
    pos_t.valid ⟨1, 1⟩ = true ∧
      ((knights_tour tour_draws ⟨1, 1⟩).length = 63 ∨
        (knights_tour tour_draws ⟨1, 1⟩).length = 0) :=
  ⟨by decide, knights_tour_length tour_draws ⟨1, 1⟩ (by decide)⟩

/-- C3: for an in-bounds start, if under the draw stream none of the 10000
attempts ends in `return moves`, then `knights_tour` returns the empty path (an
ordinary value of the total function). -/
theorem knights_tour_exhausted (draws : Nat → Nat) (start : pos_t) (hs : start.valid = true)
    (hfail : ∀ o ∈ attempt_outcomes draws start 10000 [] 0, o.succeeded = false) :
    knights_tour draws start = [] :=
  outer_loop_exhausted draws start hs 10000 0 hfail

theorem knights_tour_exhausted_witness :
    pos_t.valid ⟨1, 1⟩ = true ∧
      (∀ o ∈ attempt_outcomes (fun _ => 0) ⟨1, 1⟩ 10000 [] 0, o.succeeded = false) ∧
      knights_tour (fun _ => 0) ⟨1, 1⟩ = [] :=
  have hfail := attempt_outcomes_const_failed 0 ⟨1, 1⟩ (by decide) 10000 [] 0
  ⟨by decide, hfail, knights_tour_exhausted (fun _ => 0) ⟨1, 1⟩ (by decide) hfail⟩

/-! ## The board operations -/

/-- C4, as stated, fails: `(0,8)` is outside the grid, yet the constructor
builds a board for it (shift amount 8, in range: the bit of cell `(1,0)` is set),
and the search proceeds: `valid_moves()` yields two candidates, and running one
iteration of the inner loop applies the move to `(1,6)` and records it. -/
theorem out_of_bounds_start_not_rejected :
    pos_t.valid ⟨0, 8⟩ = false ∧
      Chessboard.init ⟨0, 8⟩ = { current := ⟨0, 8⟩, traversed := 256 } ∧
      (Chessboard.init ⟨0, 8⟩).valid_moves = [⟨1, 6⟩, ⟨2, 7⟩] ∧
      inner_loop (fun _ => 0) ⟨0, 8⟩ 1 (Chessboard.init ⟨0, 8⟩) [] 0
        = Outcome.next_attempt [⟨1, 6⟩] 1 := by
  decide

/-- C5: on every board and for every origin, each position returned by
`valid_moves(from)` is in bounds and not yet visited. -/
theorem valid_moves_from_valid_unvisited (chess : Chessboard) (origin p : pos_t)
    (hp : p ∈ chess.valid_moves_from origin) :
    p.valid = true ∧ chess.get p = false :=
  ((mem_valid_moves_from chess origin p).1 hp).2

theorem valid_moves_from_valid_unvisited_witness :
    (⟨3, 0⟩ : pos_t) ∈ (Chessboard.init ⟨1, 1⟩).valid_moves_from ⟨1, 1⟩ ∧
      pos_t.valid ⟨3, 0⟩ = true ∧ (Chessboard.init ⟨1, 1⟩).get ⟨3, 0⟩ = false :=
  ⟨by decide, valid_moves_from_valid_unvisited (Chessboard.init ⟨1, 1⟩) ⟨1, 1⟩ ⟨3, 0⟩ (by decide)⟩

theorem mem_KNIGHT_MOVES (m : pos_t) :
    m ∈ KNIGHT_MOVES ↔
      ((m.row = 1 ∨ m.row = -1) ∧ (m.col = 2 ∨ m.col = -2)) ∨
        ((m.row = 2 ∨ m.row = -2) ∧ (m.col = 1 ∨ m.col = -1)) := by
  cases m with
  | mk r c =>
    simp only [KNIGHT_MOVES, List.mem_cons, pos_t.mk.injEq, List.mem_singleton, List.not_mem_nil,
      or_false]
    omega

theorem knight_step_iff (a b : pos_t) :
    knight_step a b ↔ (⟨b.row - a.row, b.col - a.col⟩ : pos_t) ∈ KNIGHT_MOVES := by
  constructor
  · rintro ⟨m, hm, rfl⟩
    cases m with
    | mk r c =>
      simp only [pos_t.add, add_sub_cancel_left]
      exact hm
  · intro h
    refine ⟨_, h, ?_⟩
    cases a; cases b
    simp [pos_t.add]

/-- C6: knight adjacency is symmetric: a board whose current cell is `a` reports
`reachable(b)` exactly when a board whose current cell is `b` reports
`reachable(a)`, whatever the visited sets are. -/
theorem reachable_symm (a b : pos_t) (traversed1 traversed2 : Nat) :
    Chessboard.reachable { current := a, traversed := traversed1 } b
      = Chessboard.reachable { current := b, traversed := traversed2 } a := by
  rw [Bool.eq_iff_iff, reachable_iff, reachable_iff, knight_step_iff, knight_step_iff,
    mem_KNIGHT_MOVES, mem_KNIGHT_MOVES]
  simp only
  omega

theorem built_traversed_lt (chess : Chessboard) (hb : chess.Built) :
    chess.traversed < 2 ^ 64 := by
  cases hb with
  | init start h => exact set_traversed_lt _ _
  | set c pos hb h => exact set_traversed_lt _ _

theorem traversed_full_of_get (chess : Chessboard) (hlt : chess.traversed < 2 ^ 64)
    (h : ∀ p : pos_t, p.valid = true → chess.get p = true) :
    chess.traversed = 2 ^ 64 - 1 := by
  apply Nat.eq_of_testBit_eq
  intro i
  rw [Nat.testBit_two_pow_sub_one]
  by_cases hi : i < 64
  · have hv : pos_t.valid ⟨Int.ofNat (i / 8), Int.ofNat (i % 8)⟩ = true := by
      rw [valid_iff]
      simp only [Int.ofNat_eq_coe]
      omega
    have hg := h _ hv
    rw [get_eq_testBit] at hg
    have hidx : (bit_index ⟨Int.ofNat (i / 8), Int.ofNat (i % 8)⟩).toNat = i := by
      simp only [bit_index, BOARD_SIZE, Int.ofNat_eq_coe]
      omega
    rw [hidx] at hg
    rw [hg]
    exact (decide_eq_true hi).symm
  · have : chess.traversed < 2 ^ i :=
      Nat.lt_of_lt_of_le hlt (Nat.pow_le_pow_right (by decide) (by omega))
    rw [Nat.testBit_lt_two_pow this]
    exact (decide_eq_false hi).symm

theorem visited_count_eq_iff (chess : Chessboard) :
    visited_count chess = 64 ↔ ∀ p : pos_t, p.valid = true → chess.get p = true := by
  rw [visited_count, ← all_cells_length, ← List.countP_eq_length_filter, List.countP_eq_length]
  constructor
  · intro h p hp
    exact h p ((mem_all_cells p).2 hp)
  · intro h p hp
    exact h p ((mem_all_cells p).1 hp)

/-- C7: on a board built from an in-bounds start by `set` calls on in-bounds
positions, `successful()` holds exactly when `get(p)` holds for every in-bounds
position `p`, that is, exactly when the number of visited cells is 64. -/
theorem successful_iff_all_visited (chess : Chessboard) (hb : chess.Built) :
    (chess.successful = true ↔ ∀ p : pos_t, p.valid = true → chess.get p = true) ∧
      (chess.successful = true ↔ visited_count chess = 64) := by
  have key : chess.successful = true ↔ ∀ p : pos_t, p.valid = true → chess.get p = true := by
    constructor
    · intro h p hp
      exact successful_get chess h p hp
    · intro h
      have := traversed_full_of_get chess (built_traversed_lt chess hb) h
      simp [Chessboard.successful, this]
  exact ⟨key, by rw [visited_count_eq_iff]; exact key⟩

theorem successful_iff_all_visited_witness :
    (Chessboard.init ⟨1, 1⟩).Built ∧
      ((Chessboard.init ⟨1, 1⟩).successful = true ↔
        ∀ p : pos_t, p.valid = true → (Chessboard.init ⟨1, 1⟩).get p = true) ∧
      ((Chessboard.init ⟨1, 1⟩).successful = true ↔ visited_count (Chessboard.init ⟨1, 1⟩) = 64) :=
  ⟨Chessboard.Built.init ⟨1, 1⟩ (by decide),
    successful_iff_all_visited (Chessboard.init ⟨1, 1⟩) (Chessboard.Built.init ⟨1, 1⟩ (by decide))⟩

/-- C8: `reachable(b)` on a board with current cell `a` holds exactly when `b - a`
is an entry of `KNIGHT_MOVES`, that is, when the row and column differences have
absolute values 1 and 2 in some order; `KNIGHT_MOVES` has 8 pairwise distinct
entries, which are exactly the deltas with absolute values 1 and 2 in some order;
and the answer is the same for every visited set. -/
theorem reachable_iff_knight_offset (a b : pos_t) (traversed : Nat) :
    (Chessboard.reachable { current := a, traversed := traversed } b = true ↔
        (⟨b.row - a.row, b.col - a.col⟩ : pos_t) ∈ KNIGHT_MOVES) ∧
      (Chessboard.reachable { current := a, traversed := traversed } b = true ↔
        ((b.row - a.row).natAbs = 1 ∧ (b.col - a.col).natAbs = 2) ∨
          ((b.row - a.row).natAbs = 2 ∧ (b.col - a.col).natAbs = 1)) ∧
      KNIGHT_MOVES.length = 8 ∧ KNIGHT_MOVES.Nodup ∧
      (∀ m : pos_t, m ∈ KNIGHT_MOVES ↔
        (m.row.natAbs = 1 ∧ m.col.natAbs = 2) ∨ (m.row.natAbs = 2 ∧ m.col.natAbs = 1)) ∧
      ∀ traversed2 : Nat,
        Chessboard.reachable { current := a, traversed := traversed } b
          = Chessboard.reachable { current := a, traversed := traversed2 } b := by
  refine ⟨?_, ?_, rfl, by decide, ?_, fun _ => rfl⟩
  · rw [reachable_iff, knight_step_iff]
  · rw [reachable_iff, knight_step_iff, mem_KNIGHT_MOVES]
    simp only
    omega
  · intro m
    rw [mem_KNIGHT_MOVES]
    omega

/-! ## A concrete tour -/

/-- C9: for start `(1,1)` there is a draw stream under which `knights_tour`
returns, already in its first attempt, a path of length 63 with the closed-tour
property: all 64 cells visited once, consecutive cells a knight move apart, and
the last cell a knight move from `(1,1)`. -/
theorem knights_tour_from_1_1 :
    ∃ draws : Nat → Nat,
      (knights_tour draws ⟨1, 1⟩).length = 63 ∧
        closed_tour ⟨1, 1⟩ (knights_tour draws ⟨1, 1⟩) ∧
        inner_loop draws ⟨1, 1⟩ 64 (Chessboard.init ⟨1, 1⟩) [] 0
          = Outcome.returned (knights_tour draws ⟨1, 1⟩) := by
  refine ⟨tour_draws, ?_, ?_, ?_⟩
  · rw [knights_tour_tour_draws]
    rfl
  · rcases knights_tour_sound tour_draws ⟨1, 1⟩ (by decide) with h | h
    · rw [knights_tour_tour_draws] at h
      exact absurd h (by simp)
    · exact h.2
  · rw [knights_tour_tour_draws]
    decide

/-! ## The selection step and the stuck branch -/

theorem valid_moves_ne_nil_iff (chess : Chessboard) :
    chess.valid_moves.length ≠ 0 ↔ chess.valid_moves ≠ [] := by
  rw [Ne, List.length_eq_zero]

theorem inner_loop_step (draws : Nat → Nat) (start : pos_t) (fuel : Nat) (chess : Chessboard)
    (moves : List pos_t) (n : Nat) (hc : chess.valid_moves.length ≠ 0) :
    inner_loop draws start (fuel + 1) chess moves n
      = inner_loop draws start fuel (chess.set (best_move chess (draws n)))
          (moves ++ [best_move chess (draws n)]) (n + 1) := by
  rw [inner_loop, if_pos hc]

theorem inner_loop_stuck (draws : Nat → Nat) (start : pos_t) (fuel : Nat) (chess : Chessboard)
    (moves : List pos_t) (n : Nat) (hc : ¬ chess.valid_moves.length ≠ 0) :
    inner_loop draws start (fuel + 1) chess moves n
      = if (chess.successful && chess.reachable start) = true then Outcome.returned moves
        else Outcome.next_attempt [] n := by
  rw [inner_loop, if_neg hc]

theorem inner_states_step (draws : Nat → Nat) (fuel : Nat) (chess : Chessboard)
    (moves : List pos_t) (n : Nat) (hc : chess.valid_moves.length ≠ 0) :
    inner_states draws (fuel + 1) chess moves n
      = { fuel := fuel + 1, chess := chess, moves := moves, n := n } ::
          inner_states draws fuel (chess.set (best_move chess (draws n)))
            (moves ++ [best_move chess (draws n)]) (n + 1) := by
  rw [inner_states, if_pos hc]

theorem inner_states_stuck (draws : Nat → Nat) (fuel : Nat) (chess : Chessboard)
    (moves : List pos_t) (n : Nat) (hc : ¬ chess.valid_moves.length ≠ 0) :
    inner_states draws (fuel + 1) chess moves n
      = [{ fuel := fuel + 1, chess := chess, moves := moves, n := n }] := by
  rw [inner_states, if_neg hc]

theorem min_move_count_is_min (chess : Chessboard) (hc : chess.valid_moves ≠ []) :
    min_move_count (move_counts chess chess.valid_moves) ∈ move_counts chess chess.valid_moves ∧
      ∀ c ∈ chess.valid_moves,
        min_move_count (move_counts chess chess.valid_moves) ≤ (chess.valid_moves_from c).length := by
  obtain ⟨c, hcm⟩ := List.exists_mem_of_ne_nil _ hc
  have hmem : (chess.valid_moves_from c).length ∈ move_counts chess chess.valid_moves :=
    List.mem_map.2 ⟨c, hcm, rfl⟩
  have hlt : (chess.valid_moves_from c).length < INT_MAX :=
    Nat.lt_of_le_of_lt (valid_moves_from_length_le chess c) (by decide)
  refine ⟨min_move_count_mem _ _ hmem hlt, ?_⟩
  intro d hd
  exact min_move_count_le _ _ (List.mem_map.2 ⟨d, hd, rfl⟩)

/-- C11: in every iteration of the inner loop whose candidate list is non-empty,
and for every draw, the loop moves to `best_move`, which is a candidate whose
onward degree (measured on the board before the move) is minimal among all
candidates; `best_moves`, from which it is drawn, is exactly the list of
candidates whose degree equals the minimum, in candidate order. -/
theorem warnsdorff_selection (draws : Nat → Nat) (start : pos_t) (fuel : Nat)
    (chess : Chessboard) (moves : List pos_t) (n : Nat)
    (hc : chess.valid_moves.length ≠ 0) :
    inner_loop draws start (fuel + 1) chess moves n
        = inner_loop draws start fuel (chess.set (best_move chess (draws n)))
            (moves ++ [best_move chess (draws n)]) (n + 1) ∧
      best_move chess (draws n) ∈ chess.valid_moves ∧
      (∀ c ∈ chess.valid_moves, degree chess (best_move chess (draws n)) ≤ degree chess c) ∧
      best_move chess (draws n) ∈ best_moves chess ∧
      best_moves chess = chess.valid_moves.filter (fun c =>
        degree chess c == min_move_count (move_counts chess chess.valid_moves)) ∧
      (∃ c ∈ chess.valid_moves,
        degree chess c = min_move_count (move_counts chess chess.valid_moves)) ∧
      (∀ c ∈ chess.valid_moves,
        min_move_count (move_counts chess chess.valid_moves) ≤ degree chess c) := by
  have hne := (valid_moves_ne_nil_iff chess).1 hc
  have hb := best_move_mem_best_moves chess (draws n) hne
  have hbm := (mem_best_moves chess _).1 hb
  have hmin := min_move_count_is_min chess hne
  refine ⟨inner_loop_step draws start fuel chess moves n hc, hbm.1, ?_, hb, best_moves_eq chess,
    ?_, hmin.2⟩
  · intro c hcm
    unfold degree
    rw [hbm.2]
    exact hmin.2 c hcm
  · obtain ⟨c, hcm, hceq⟩ := List.mem_map.1 hmin.1
    exact ⟨c, hcm, hceq⟩

theorem warnsdorff_selection_witness :
    (Chessboard.init ⟨1, 1⟩).valid_moves.length ≠ 0 ∧
      best_move (Chessboard.init ⟨1, 1⟩) 0 ∈ (Chessboard.init ⟨1, 1⟩).valid_moves ∧
      (∀ c ∈ (Chessboard.init ⟨1, 1⟩).valid_moves,
        degree (Chessboard.init ⟨1, 1⟩) (best_move (Chessboard.init ⟨1, 1⟩) 0)
          ≤ degree (Chessboard.init ⟨1, 1⟩) c) :=
  have h := warnsdorff_selection (fun _ => 0) ⟨1, 1⟩ 63 (Chessboard.init ⟨1, 1⟩) [] 0 (by decide)
  ⟨by decide, h.2.1, h.2.2.1⟩

theorem inner_loop_returned_iff (draws : Nat → Nat) (start : pos_t) :
    ∀ (fuel : Nat) (chess : Chessboard) (moves : List pos_t) (n : Nat) (path : List pos_t),
      inner_loop draws start fuel chess moves n = Outcome.returned path ↔
        ∃ s ∈ inner_states draws fuel chess moves n,
          s.chess.valid_moves = [] ∧ s.chess.successful = true ∧
            s.chess.reachable start = true ∧ s.moves = path := by
  intro fuel
  induction fuel with
  | zero =>
    intro chess moves n path
    simp [inner_loop, inner_states]
  | succ fuel ih =>
    intro chess moves n path
    by_cases hc : chess.valid_moves.length ≠ 0
    · rw [inner_loop_step draws start fuel chess moves n hc,
        inner_states_step draws fuel chess moves n hc, ih]
      have hne := (valid_moves_ne_nil_iff chess).1 hc
      simp only [List.mem_cons, exists_eq_or_imp, hne, false_and, false_or]
    · rw [inner_loop_stuck draws start fuel chess moves n hc,
        inner_states_stuck draws fuel chess moves n hc]
      have hnil : chess.valid_moves = [] := by
        by_contra h
        exact hc ((valid_moves_ne_nil_iff chess).2 h)
      simp only [List.mem_singleton, exists_eq_left, hnil, true_and, Bool.and_eq_true]
      split
      · next h => simp [h]
      · next h =>
        constructor
        · intro h1
          exact absurd h1 (by simp)
        · rintro ⟨h1, h2, _⟩
          exact absurd ⟨h1, h2⟩ h

theorem inner_loop_discards (draws : Nat → Nat) (start : pos_t) :
    ∀ (fuel : Nat) (chess : Chessboard) (moves : List pos_t) (n : Nat),
      ∀ s ∈ inner_states draws fuel chess moves n,
        s.chess.valid_moves = [] →
        ¬ (s.chess.successful = true ∧ s.chess.reachable start = true) →
        inner_loop draws start fuel chess moves n = Outcome.next_attempt [] s.n := by
  intro fuel
  induction fuel with
  | zero =>
    intro chess moves n s hs
    simp [inner_states] at hs
  | succ fuel ih =>
    intro chess moves n s hs hstuck hnot
    by_cases hc : chess.valid_moves.length ≠ 0
    · rw [inner_states_step draws fuel chess moves n hc] at hs
      rw [inner_loop_step draws start fuel chess moves n hc]
      rcases List.mem_cons.1 hs with rfl | hs1
      · exact absurd hstuck ((valid_moves_ne_nil_iff chess).1 hc)
      · exact ih _ _ _ s hs1 hstuck hnot
    · rw [inner_states_stuck draws fuel chess moves n hc] at hs
      rw [inner_loop_stuck draws start fuel chess moves n hc]
      rw [List.mem_singleton] at hs
      subst hs
      simp only [Bool.and_eq_true] at hnot ⊢
      rw [if_neg hnot]

/-- C12: an attempt returns its accumulated path exactly when it reaches an
iteration in which `valid_moves()` is empty while `successful()` and
`reachable(INITIAL_POS)` both hold, and the path returned is the one accumulated
at that iteration; in every other iteration with no candidate move, in
particular on a complete board whose current cell is not a knight move from the
start, the path is cleared and control passes to the next attempt. -/
theorem sole_success_condition (draws : Nat → Nat) (start : pos_t) (fuel : Nat)
    (chess : Chessboard) (moves : List pos_t) (n : Nat) :
    (∀ path : List pos_t,
        inner_loop draws start fuel chess moves n = Outcome.returned path ↔
          ∃ s ∈ inner_states draws fuel chess moves n,
            s.chess.valid_moves = [] ∧ s.chess.successful = true ∧
              s.chess.reachable start = true ∧ s.moves = path) ∧
      (∀ s ∈ inner_states draws fuel chess moves n,
        s.chess.valid_moves = [] →
        ¬ (s.chess.successful = true ∧ s.chess.reachable start = true) →
        inner_loop draws start fuel chess moves n = Outcome.next_attempt [] s.n) ∧
      (∀ s ∈ inner_states draws fuel chess moves n,
        s.chess.valid_moves = [] → s.chess.successful = true →
        s.chess.reachable start = false →
        inner_loop draws start fuel chess moves n = Outcome.next_attempt [] s.n) := by
  refine ⟨inner_loop_returned_iff draws start fuel chess moves n,
    inner_loop_discards draws start fuel chess moves n, ?_⟩
  intro s hs hstuck _ hr
  refine inner_loop_discards draws start fuel chess moves n s hs hstuck ?_
  rintro ⟨_, h⟩
  rw [hr] at h
  exact Bool.false_ne_true h

theorem sole_success_condition_witness :
    ∃ s ∈ inner_states (fun _ => 0) 64 (Chessboard.init ⟨1, 1⟩) [] 0,
      s.chess.valid_moves = [] ∧ s.chess.successful = true ∧
        s.chess.reachable ⟨1, 1⟩ = false ∧
        inner_loop (fun _ => 0) ⟨1, 1⟩ 64 (Chessboard.init ⟨1, 1⟩) [] 0
          = Outcome.next_attempt [] s.n := by
  have h : ∃ s ∈ inner_states (fun _ => 0) 64 (Chessboard.init ⟨1, 1⟩) [] 0,
      s.chess.valid_moves = [] ∧ s.chess.successful = true ∧
        s.chess.reachable ⟨1, 1⟩ = false := by decide
  obtain ⟨s, hs, h1, h2, h3⟩ := h
  exact ⟨s, hs, h1, h2, h3,
    (sole_success_condition (fun _ => 0) ⟨1, 1⟩ 64 (Chessboard.init ⟨1, 1⟩) [] 0).2.2
      s hs h1 h2 h3⟩

/-! ## The iterations of the attempts -/

/-- Every iteration state of an attempt that starts in the invariant satisfies
the invariant, and its path length and remaining iterations add up as at the
start. -/
theorem inner_states_inv (draws : Nat → Nat) (start : pos_t) :
    ∀ (fuel : Nat) (chess : Chessboard) (moves : List pos_t) (n : Nat),
      AttemptInv start chess moves →
      ∀ s ∈ inner_states draws fuel chess moves n,
        AttemptInv start s.chess s.moves ∧ s.moves.length + s.fuel = moves.length + fuel ∧
          0 < s.fuel := by
  intro fuel
  induction fuel with
  | zero =>
    intro chess moves n _ s hs
    simp [inner_states] at hs
  | succ fuel ih =>
    intro chess moves n inv s hs
    by_cases hc : chess.valid_moves.length ≠ 0
    · rw [inner_states_step draws fuel chess moves n hc] at hs
      rcases List.mem_cons.1 hs with rfl | hs1
      · exact ⟨inv, rfl, Nat.succ_pos _⟩
      · have hmem := best_move_mem_valid_moves chess (draws n) ((valid_moves_ne_nil_iff chess).1 hc)
        have h := ih _ _ _ (attemptInv_step start chess moves inv _ hmem) s hs1
        refine ⟨h.1, ?_, h.2.2⟩
        have h2 := h.2.1
        simp only [List.length_append, List.length_cons, List.length_nil] at h2
        omega
    · rw [inner_states_stuck draws fuel chess moves n hc, List.mem_singleton] at hs
      subst hs
      exact ⟨inv, rfl, Nat.succ_pos _⟩

/-- An attempt from a fresh board reaches an iteration with no candidate move
before its 64 iterations are used up. -/
theorem inner_states_reach_stuck (draws : Nat → Nat) (start : pos_t) :
    ∀ (fuel : Nat) (chess : Chessboard) (moves : List pos_t) (n : Nat),
      AttemptInv start chess moves → moves.length + fuel = 64 → 0 < fuel →
      ∃ s ∈ inner_states draws fuel chess moves n, s.chess.valid_moves = [] := by
  intro fuel
  induction fuel with
  | zero => intro _ _ _ _ _ h; exact absurd h (Nat.lt_irrefl 0)
  | succ fuel ih =>
    intro chess moves n inv hlen _
    by_cases hc : chess.valid_moves.length ≠ 0
    · rw [inner_states_step draws fuel chess moves n hc]
      have hmem := best_move_mem_valid_moves chess (draws n) ((valid_moves_ne_nil_iff chess).1 hc)
      have inv1 := attemptInv_step start chess moves inv _ hmem
      have hle := length_le_of_valid _ inv1.nodup inv1.all_valid
      simp only [List.length_cons, List.length_append, List.length_nil] at hle
      obtain ⟨s, hs, hst⟩ := ih _ _ (n + 1) inv1
        (by simp only [List.length_append, List.length_cons, List.length_nil]; omega) (by omega)
      exact ⟨s, List.mem_cons_of_mem _ hs, hst⟩
    · rw [inner_states_stuck draws fuel chess moves n hc]
      refine ⟨_, List.mem_singleton.2 rfl, ?_⟩
      by_contra h
      exact hc ((valid_moves_ne_nil_iff chess).2 h)

theorem inner_states_length_le (draws : Nat → Nat) :
    ∀ (fuel : Nat) (chess : Chessboard) (moves : List pos_t) (n : Nat),
      (inner_states draws fuel chess moves n).length ≤ fuel := by
  intro fuel
  induction fuel with
  | zero => intro _ _ _; simp [inner_states]
  | succ fuel ih =>
    intro chess moves n
    by_cases hc : chess.valid_moves.length ≠ 0
    · rw [inner_states_step draws fuel chess moves n hc, List.length_cons]
      exact Nat.succ_le_succ (ih _ _ _)
    · rw [inner_states_stuck draws fuel chess moves n hc]
      simp

/-- From an in-bounds start every attempt begins with the empty path on a fresh
board. -/
theorem attempt_runs_fresh (draws : Nat → Nat) (start : pos_t) (hs : start.valid = true) :
    ∀ (attempts n : Nat),
      ∀ states ∈ attempt_runs draws start attempts [] n,
        ∃ n1, states = inner_states draws 64 (Chessboard.init start) [] n1 := by
  intro attempts
  induction attempts with
  | zero => intro n states h; simp [attempt_runs] at h
  | succ attempts ih =>
    intro n states h
    have hsound := inner_loop_sound draws start 64 (Chessboard.init start) [] n
      (attemptInv_init start hs) rfl (by decide)
    rw [attempt_runs] at h
    rcases List.mem_cons.1 h with rfl | h1
    · exact ⟨n, rfl⟩
    · cases hout : inner_loop draws start 64 (Chessboard.init start) [] n with
      | returned path =>
        rw [hout] at h1
        simp at h1
      | next_attempt moves1 n1 =>
        rw [hout] at h1 hsound
        simp only [Outcome.sound] at hsound
        subst hsound
        exact ih n1 states h1

theorem attempt_runs_length_le (draws : Nat → Nat) (start : pos_t) :
    ∀ (attempts : Nat) (moves : List pos_t) (n : Nat),
      (attempt_runs draws start attempts moves n).length ≤ attempts := by
  intro attempts
  induction attempts with
  | zero => intro _ _; simp [attempt_runs]
  | succ attempts ih =>
    intro moves n
    rw [attempt_runs, List.length_cons]
    apply Nat.succ_le_succ
    split
    · simp
    · exact ih _ _

theorem attempt_outcomes_sound (draws : Nat → Nat) (start : pos_t) (hs : start.valid = true) :
    ∀ (attempts n : Nat),
      ∀ o ∈ attempt_outcomes draws start attempts [] n, o.sound start := by
  intro attempts
  induction attempts with
  | zero => intro n o h; simp [attempt_outcomes] at h
  | succ attempts ih =>
    intro n o h
    have hsound := inner_loop_sound draws start 64 (Chessboard.init start) [] n
      (attemptInv_init start hs) rfl (by decide)
    rw [attempt_outcomes] at h
    cases hout : inner_loop draws start 64 (Chessboard.init start) [] n with
    | returned path =>
      rw [hout] at h hsound
      rw [List.mem_singleton] at h
      rw [h]
      exact hsound
    | next_attempt moves1 n1 =>
      rw [hout] at h hsound
      rcases List.mem_cons.1 h with rfl | h1
      · exact hsound
      · simp only [Outcome.sound] at hsound
        subst hsound
        exact ih n1 o h1

theorem visited_count_of_inv (start : pos_t) (chess : Chessboard) (moves : List pos_t)
    (inv : AttemptInv start chess moves) : visited_count chess = moves.length + 1 := by
  have hperm : (all_cells.filter chess.get).Perm (start :: moves) := by
    rw [List.perm_ext_iff_of_nodup (all_cells_nodup.filter _) inv.nodup]
    intro p
    rw [List.mem_filter, mem_all_cells]
    constructor
    · rintro ⟨hv, hg⟩
      exact (inv.visited_iff p hv).1 hg
    · intro hm
      have hv := inv.all_valid p hm
      exact ⟨hv, (inv.visited_iff p hv).2 hm⟩
  rw [visited_count, hperm.length_eq, List.length_cons]

theorem inner_states_head (draws : Nat → Nat) (fuel : Nat) (chess : Chessboard)
    (moves : List pos_t) (n : Nat) :
    inner_states draws (fuel + 1) chess moves n
      = { fuel := fuel + 1, chess := chess, moves := moves, n := n } ::
          (inner_states draws (fuel + 1) chess moves n).tail := by
  rw [inner_states]
  rfl

theorem attempt_outcomes_length (draws : Nat → Nat) (start : pos_t) :
    ∀ (attempts : Nat) (moves : List pos_t) (n : Nat),
      (attempt_outcomes draws start attempts moves n).length
        = (attempt_runs draws start attempts moves n).length := by
  intro attempts
  induction attempts with
  | zero => intro _ _; rfl
  | succ attempts ih =>
    intro moves n
    rw [attempt_outcomes, attempt_runs]
    cases inner_loop draws start 64 (Chessboard.init start) moves n with
    | returned path => rfl
    | next_attempt moves1 n1 =>
      simp only [List.length_cons]
      rw [ih]

/-- C13: from an in-bounds start and under any draws, every attempt begins with
the empty path on a board whose current cell is the start and on which exactly
the start is visited; every attempt reaches an iteration with no candidate move,
so its loop is left by `return` or by `clear(); break` and not by its loop
condition; and an attempt that does not return hands on the empty path. -/
theorem attempts_start_fresh (draws : Nat → Nat) (start : pos_t) (hs : start.valid = true) :
    (∀ states ∈ attempt_runs draws start 10000 [] 0,
        (∃ s0 rest, states = s0 :: rest ∧ s0.moves = [] ∧ s0.fuel = 64 ∧
          s0.chess = Chessboard.init start ∧ s0.chess.current = start ∧
          visited_count s0.chess = 1 ∧
          ∀ p : pos_t, p.valid = true → (s0.chess.get p = true ↔ p = start)) ∧
        ∃ s ∈ states, s.chess.valid_moves = []) ∧
      (∀ o ∈ attempt_outcomes draws start 10000 [] 0,
        (∃ path, o = Outcome.returned path) ∨ (∃ n1, o = Outcome.next_attempt [] n1)) := by
  constructor
  · intro states hst
    obtain ⟨n1, rfl⟩ := attempt_runs_fresh draws start hs 10000 0 states hst
    constructor
    · refine ⟨{ fuel := 64, chess := Chessboard.init start, moves := [], n := n1 },
        (inner_states draws 64 (Chessboard.init start) [] n1).tail,
        inner_states_head draws 63 (Chessboard.init start) [] n1, rfl, rfl, rfl, rfl, ?_, ?_⟩
      · exact visited_count_of_inv start _ [] (attemptInv_init start hs)
      · intro p hp
        exact init_get start p hs hp
    · exact inner_states_reach_stuck draws start 64 (Chessboard.init start) [] n1
        (attemptInv_init start hs) rfl (by decide)
  · intro o ho
    have h := attempt_outcomes_sound draws start hs 10000 0 o ho
    cases o with
    | returned path => exact Or.inl ⟨path, rfl⟩
    | next_attempt moves n1 =>
      simp only [Outcome.sound] at h
      subst h
      exact Or.inr ⟨n1, rfl⟩

theorem attempts_start_fresh_witness :
    pos_t.valid ⟨1, 1⟩ = true ∧
      ((∀ states ∈ attempt_runs tour_draws ⟨1, 1⟩ 10000 [] 0,
          (∃ s0 rest, states = s0 :: rest ∧ s0.moves = [] ∧ s0.fuel = 64 ∧
            s0.chess = Chessboard.init ⟨1, 1⟩ ∧ s0.chess.current = ⟨1, 1⟩ ∧
            visited_count s0.chess = 1 ∧
            ∀ p : pos_t, p.valid = true → (s0.chess.get p = true ↔ p = ⟨1, 1⟩)) ∧
          ∃ s ∈ states, s.chess.valid_moves = []) ∧
        (∀ o ∈ attempt_outcomes tour_draws ⟨1, 1⟩ 10000 [] 0,
          (∃ path, o = Outcome.returned path) ∨ (∃ n1, o = Outcome.next_attempt [] n1))) :=
  ⟨by decide, attempts_start_fresh tour_draws ⟨1, 1⟩ (by decide)⟩

/-- C17: from an in-bounds start and under any draws, at every iteration of
every attempt the number of visited cells equals the number of moves in the
path plus one, and the current cell is the last element of the path, or the
start when the path is empty. -/
theorem visited_count_tracks_path (draws : Nat → Nat) (start : pos_t)
    (hs : start.valid = true) :
    ∀ states ∈ attempt_runs draws start 10000 [] 0, ∀ s ∈ states,
      visited_count s.chess = s.moves.length + 1 ∧
        s.chess.current = s.moves.getLastD start := by
  intro states hst s hmem
  obtain ⟨n1, rfl⟩ := attempt_runs_fresh draws start hs 10000 0 states hst
  have inv := (inner_states_inv draws start 64 (Chessboard.init start) [] n1
    (attemptInv_init start hs) s hmem).1
  refine ⟨visited_count_of_inv start _ _ inv, ?_⟩
  rw [inv.current_eq, List.getLast_eq_getLastD]

theorem visited_count_tracks_path_witness :
    pos_t.valid ⟨1, 1⟩ = true ∧
      ∀ states ∈ attempt_runs tour_draws ⟨1, 1⟩ 10000 [] 0, ∀ s ∈ states,
        visited_count s.chess = s.moves.length + 1 ∧
          s.chess.current = s.moves.getLastD ⟨1, 1⟩ :=
  ⟨by decide, visited_count_tracks_path tour_draws ⟨1, 1⟩ (by decide)⟩

/-- C18: `knights_tour` is a total function; from an in-bounds start and under any
draws it makes at most 10000 attempts, each attempt runs at most 64 iterations of
which at most 63 apply a move, and the path never holds more than 63 moves. -/
theorem bounded_search (draws : Nat → Nat) (start : pos_t) (hs : start.valid = true) :
    (attempt_runs draws start 10000 [] 0).length ≤ 10000 ∧
      (attempt_outcomes draws start 10000 [] 0).length
        = (attempt_runs draws start 10000 [] 0).length ∧
      ∀ states ∈ attempt_runs draws start 10000 [] 0,
        states.length ≤ 64 ∧
          (states.filter (fun s => decide (s.chess.valid_moves.length ≠ 0))).length ≤ 63 ∧
          ∀ s ∈ states, s.moves.length ≤ 63 := by
  refine ⟨attempt_runs_length_le draws start 10000 [] 0, ?_, ?_⟩
  · exact attempt_outcomes_length draws start 10000 [] 0
  · intro states hst
    obtain ⟨n1, rfl⟩ := attempt_runs_fresh draws start hs 10000 0 states hst
    have hlen := inner_states_length_le draws 64 (Chessboard.init start) [] n1
    refine ⟨hlen, ?_, ?_⟩
    · obtain ⟨s, hmem, hstuck⟩ := inner_states_reach_stuck draws start 64
        (Chessboard.init start) [] n1 (attemptInv_init start hs) rfl (by decide)
      have hlt : (List.filter (fun s => decide (s.chess.valid_moves.length ≠ 0))
          (inner_states draws 64 (Chessboard.init start) [] n1)).length
          < (inner_states draws 64 (Chessboard.init start) [] n1).length := by
        rw [List.length_filter_lt_length_iff_exists]
        exact ⟨s, hmem, by simp [hstuck]⟩
      omega
    · intro s hmem
      have h := inner_states_inv draws start 64 (Chessboard.init start) [] n1
        (attemptInv_init start hs) s hmem
      have h1 := h.2.1
      have h2 := h.2.2
      simp only [List.length_nil] at h1
      omega

theorem bounded_search_witness :
    pos_t.valid ⟨1, 1⟩ = true ∧
      ((attempt_runs tour_draws ⟨1, 1⟩ 10000 [] 0).length ≤ 10000 ∧
        (attempt_outcomes tour_draws ⟨1, 1⟩ 10000 [] 0).length
          = (attempt_runs tour_draws ⟨1, 1⟩ 10000 [] 0).length ∧
        ∀ states ∈ attempt_runs tour_draws ⟨1, 1⟩ 10000 [] 0,
          states.length ≤ 64 ∧
            (states.filter (fun s => decide (s.chess.valid_moves.length ≠ 0))).length ≤ 63 ∧
            ∀ s ∈ states, s.moves.length ≤ 63) :=
  ⟨by decide, bounded_search tour_draws ⟨1, 1⟩ (by decide)⟩

/-- C19: from an in-bounds start and under any draws, whenever an iteration of an
attempt calls `chess.set(best_move)`, the move is in bounds and not yet visited on
the board before the call, so the shift amount `row * 8 + col` lies in `0..63`
and the move is not yet on the path; at every iteration the start and the moves
of the path are pairwise distinct. -/
theorem set_precondition (draws : Nat → Nat) (start : pos_t) (hs : start.valid = true) :
    ∀ states ∈ attempt_runs draws start 10000 [] 0, ∀ s ∈ states,
      (s.chess.valid_moves.length ≠ 0 →
        (best_move s.chess (draws s.n)).valid = true ∧
          s.chess.get (best_move s.chess (draws s.n)) = false ∧
          0 ≤ bit_index (best_move s.chess (draws s.n)) ∧
          bit_index (best_move s.chess (draws s.n)) < 64 ∧
          best_move s.chess (draws s.n) ∉ start :: s.moves) ∧
        (start :: s.moves).Nodup := by
  intro states hst s hmem
  obtain ⟨n1, rfl⟩ := attempt_runs_fresh draws start hs 10000 0 states hst
  have inv := (inner_states_inv draws start 64 (Chessboard.init start) [] n1
    (attemptInv_init start hs) s hmem).1
  refine ⟨?_, inv.nodup⟩
  intro hc
  have hb := best_move_mem_valid_moves s.chess (draws s.n) ((valid_moves_ne_nil_iff _).1 hc)
  obtain ⟨_, hv, hg⟩ := (mem_valid_moves_from s.chess s.chess.current _).1 hb
  have hr := bit_index_range _ hv
  refine ⟨hv, hg, hr.1, hr.2, ?_⟩
  intro hin
  have := (inv.visited_iff _ hv).2 hin
  rw [hg] at this
  exact Bool.false_ne_true this

theorem set_precondition_witness :
    pos_t.valid ⟨1, 1⟩ = true ∧
      ∀ states ∈ attempt_runs tour_draws ⟨1, 1⟩ 10000 [] 0, ∀ s ∈ states,
        (s.chess.valid_moves.length ≠ 0 →
          (best_move s.chess (tour_draws s.n)).valid = true ∧
            s.chess.get (best_move s.chess (tour_draws s.n)) = false ∧
            0 ≤ bit_index (best_move s.chess (tour_draws s.n)) ∧
            bit_index (best_move s.chess (tour_draws s.n)) < 64 ∧
            best_move s.chess (tour_draws s.n) ∉ (⟨1, 1⟩ : pos_t) :: s.moves) ∧
          ((⟨1, 1⟩ : pos_t) :: s.moves).Nodup :=
  ⟨by decide, set_precondition tour_draws ⟨1, 1⟩ (by decide)⟩

/-! ## Candidate generation, the board frame and array bounds -/

theorem add_injective (origin : pos_t) : Function.Injective (fun offset => origin.add offset) := by
  intro a b h
  cases a; cases b
  simp only [pos_t.add, pos_t.mk.injEq, add_right_inj] at h
  simp only [pos_t.mk.injEq]
  exact h

theorem valid_moves_from_nodup (chess : Chessboard) (origin : pos_t) :
    (chess.valid_moves_from origin).Nodup := by
  rw [valid_moves_from_eq]
  exact (List.Nodup.map (add_injective origin) (by decide)).filter _

/-- C14: `valid_moves(from)` is the list obtained by translating `from` by the 8
offsets of `KNIGHT_MOVES` in declaration order and keeping the results that are
in bounds and unvisited; every in-bounds unvisited cell one knight move from
`from` occurs in it exactly once, nothing else occurs, and its size is the number
of such cells. -/
theorem valid_moves_from_refines (chess : Chessboard) (origin : pos_t) :
    chess.valid_moves_from origin = candidate_moves_spec chess origin ∧
      (chess.valid_moves_from origin).Sublist (KNIGHT_MOVES.map (fun offset => origin.add offset)) ∧
      (∀ p : pos_t, p.valid = true → chess.get p = false → knight_step origin p →
        (chess.valid_moves_from origin).count p = 1) ∧
      (∀ p ∈ chess.valid_moves_from origin,
        knight_step origin p ∧ p.valid = true ∧ chess.get p = false) ∧
      (chess.valid_moves_from origin).length
        = (all_cells.filter (fun p => decide (knight_step origin p) && !chess.get p)).length := by
  refine ⟨valid_moves_from_eq chess origin, ?_, ?_, ?_, ?_⟩
  · rw [valid_moves_from_eq]
    exact List.filter_sublist _
  · intro p hv hg hk
    exact List.count_eq_one_of_mem (valid_moves_from_nodup chess origin)
      ((mem_valid_moves_from chess origin p).2 ⟨hk, hv, hg⟩)
  · intro p hp
    exact (mem_valid_moves_from chess origin p).1 hp
  · apply List.Perm.length_eq
    rw [List.perm_ext_iff_of_nodup (valid_moves_from_nodup chess origin)
      (all_cells_nodup.filter _)]
    intro p
    rw [mem_valid_moves_from, List.mem_filter, mem_all_cells]
    simp only [Bool.and_eq_true, decide_eq_true_eq, Bool.not_eq_true', knight_step]
    constructor
    · rintro ⟨h1, h2, h3⟩
      exact ⟨h2, h1, h3⟩
    · rintro ⟨h2, h1, h3⟩
      exact ⟨h1, h2, h3⟩

/-- C15: for every board and every in-bounds position `p`, after `set(p)` the
current cell is `p` and `get(p)` holds, `get(q)` is unchanged for every in-bounds
`q` other than `p`, so every cell visited before is still visited; the bit index
`row * 8 + col` is injective on in-bounds positions. -/
theorem set_frame (chess : Chessboard) (p : pos_t) (hp : p.valid = true) :
    (chess.set p).get_current = p ∧ (chess.set p).get p = true ∧
      (∀ q : pos_t, q.valid = true → q ≠ p → (chess.set p).get q = chess.get q) ∧
      (∀ q : pos_t, q.valid = true → chess.get q = true → (chess.set p).get q = true) ∧
      (∀ a b : pos_t, a.valid = true → b.valid = true → bit_index a = bit_index b → a = b) := by
  refine ⟨rfl, (set_get chess p p hp hp).2 (Or.inr rfl), ?_, ?_, ?_⟩
  · intro q hq hne
    rw [Bool.eq_iff_iff, set_get chess p q hp hq]
    constructor
    · rintro (h | h)
      · exact h
      · exact absurd h hne
    · exact Or.inl
  · intro q hq hg
    exact (set_get chess p q hp hq).2 (Or.inl hg)
  · intro a b ha hb h
    exact bit_index_inj a b ha hb (by rw [h])

theorem set_frame_witness :
    pos_t.valid ⟨3, 0⟩ = true ∧
      ((Chessboard.init ⟨1, 1⟩).set ⟨3, 0⟩).get_current = ⟨3, 0⟩ ∧
      ((Chessboard.init ⟨1, 1⟩).set ⟨3, 0⟩).get ⟨3, 0⟩ = true ∧
      (∀ q : pos_t, q.valid = true → q ≠ ⟨3, 0⟩ →
        ((Chessboard.init ⟨1, 1⟩).set ⟨3, 0⟩).get q = (Chessboard.init ⟨1, 1⟩).get q) ∧
      (∀ q : pos_t, q.valid = true → (Chessboard.init ⟨1, 1⟩).get q = true →
        ((Chessboard.init ⟨1, 1⟩).set ⟨3, 0⟩).get q = true) ∧
      (∀ a b : pos_t, a.valid = true → b.valid = true → bit_index a = bit_index b → a = b) :=
  ⟨by decide, set_frame (Chessboard.init ⟨1, 1⟩) ⟨3, 0⟩ (by decide)⟩

theorem built_current (chess : Chessboard) (hb : chess.Built) :
    chess.current.valid = true ∧ chess.get chess.current = true := by
  cases hb with
  | init start h => exact ⟨h, (init_get start start h h).2 rfl⟩
  | set c pos hb h => exact ⟨h, (set_get c pos pos h h).2 (Or.inr rfl)⟩

/-- C16: on every board obtained from the constructor on an in-bounds start by
`set` calls on in-bounds positions, the current cell is visited:
`get(get_current())` holds; on the board the constructor yields for an in-bounds
start, the current cell is the start and the start is the only visited cell. -/
theorem current_visited (chess : Chessboard) (hb : chess.Built) :
    chess.get chess.get_current = true ∧
      ∀ start : pos_t, start.valid = true →
        (Chessboard.init start).get_current = start ∧
          (∀ p : pos_t, p.valid = true → ((Chessboard.init start).get p = true ↔ p = start)) ∧
          visited_count (Chessboard.init start) = 1 :=
  ⟨(built_current chess hb).2, fun start hs =>
    ⟨rfl, fun p hp => init_get start p hs hp,
      visited_count_of_inv start _ [] (attemptInv_init start hs)⟩⟩

theorem current_visited_witness :
    ((Chessboard.init ⟨1, 1⟩).set ⟨3, 0⟩).Built ∧
      ((Chessboard.init ⟨1, 1⟩).set ⟨3, 0⟩).get
        ((Chessboard.init ⟨1, 1⟩).set ⟨3, 0⟩).get_current = true :=
  have hb : ((Chessboard.init ⟨1, 1⟩).set ⟨3, 0⟩).Built :=
    Chessboard.Built.set _ _ (Chessboard.Built.init ⟨1, 1⟩ (by decide)) (by decide)
  ⟨hb, (current_visited _ hb).1⟩

theorem best_moves_length_le (chess : Chessboard) : (best_moves chess).length ≤ 8 := by
  rw [best_moves_eq]
  exact (List.length_filter_le _ _).trans (valid_moves_from_length_le chess chess.current)

/-- C20: on every board, `valid_moves` returns at most 8 positions from any
origin, so the candidate array, `move_count` and `best_moves` hold at most 8
entries each; and whenever the candidate list is non-empty, `best_moves` has at
least one entry, the drawn index lies below its size, and the entry read at
that index is an element written into `best_moves`. -/
theorem array_accesses_in_bounds (chess : Chessboard) (origin : pos_t) (draw : Nat) :
    (chess.valid_moves_from origin).length ≤ 8 ∧ chess.valid_moves.length ≤ 8 ∧
      (move_counts chess chess.valid_moves).length = chess.valid_moves.length ∧
      (best_moves chess).length ≤ 8 ∧
      (chess.valid_moves.length ≠ 0 →
        1 ≤ (best_moves chess).length ∧
          draw % (best_moves chess).length < (best_moves chess).length ∧
          (best_moves chess)[draw % (best_moves chess).length]? = some (best_move chess draw) ∧
          best_move chess draw ∈ best_moves chess) := by
  refine ⟨valid_moves_from_length_le chess origin, valid_moves_from_length_le chess chess.current,
    by simp [move_counts], best_moves_length_le chess, ?_⟩
  intro hc
  have hne := (valid_moves_ne_nil_iff chess).1 hc
  have hpos : 0 < (best_moves chess).length := List.length_pos.2 (best_moves_ne_nil chess hne)
  have hlt : draw % (best_moves chess).length < (best_moves chess).length := Nat.mod_lt _ hpos
  refine ⟨hpos, hlt, ?_, best_move_mem_best_moves chess draw hne⟩
  rw [List.getElem?_eq_getElem hlt]
  simp only [best_move]
  rw [List.getD_eq_getElem _ _ hlt]

/-! ## Dependence on the draws -/

theorem init_traversed (start : pos_t) (h0 : 0 ≤ bit_index start) (h1 : bit_index start < 64) :
    (Chessboard.init start).traversed = 2 ^ (bit_index start).toNat := by
  have hlt : (bit_index start).toNat < 64 := by omega
  simp only [Chessboard.init, Chessboard.set, Nat.zero_or, Nat.one_shiftLeft]
  exact Nat.mod_eq_of_lt (Nat.pow_lt_pow_right (by decide) hlt)

theorem init_not_successful (start : pos_t) (h0 : 0 ≤ bit_index start)
    (h1 : bit_index start < 64) : (Chessboard.init start).successful = false := by
  have hlt : (bit_index start).toNat ≤ 63 := by omega
  have hpow : 2 ^ (bit_index start).toNat ≤ 2 ^ 63 := Nat.pow_le_pow_right (by decide) hlt
  have h63 : (2 : Nat) ^ 63 = 9223372036854775808 := by norm_num
  simp only [Chessboard.successful, init_traversed start h0 h1, beq_eq_false_iff_ne, ne_eq]
  omega

/-- When the fresh board offers no candidate move and is not complete, every
attempt breaks in its first iteration and the run ends with the empty path. -/
theorem outer_loop_stuck_at_start (draws : Nat → Nat) (start : pos_t)
    (hc : (Chessboard.init start).valid_moves.length = 0)
    (hs : (Chessboard.init start).successful = false) :
    ∀ (attempts n : Nat), outer_loop draws start attempts [] n = [] := by
  intro attempts
  induction attempts with
  | zero => intro _; rfl
  | succ attempts ih =>
    intro n
    have hstep : inner_loop draws start 64 (Chessboard.init start) [] n
        = Outcome.next_attempt [] n := by
      rw [inner_loop_stuck draws start 63 (Chessboard.init start) [] n (by simp [hc]), hs]
      simp
    rw [outer_loop, hstep]
    exact ih n

theorem attempt_runs_head (draws : Nat → Nat) (start : pos_t) (attempts : Nat)
    (moves : List pos_t) (n : Nat) :
    attempt_runs draws start (attempts + 1) moves n
      = inner_states draws 64 (Chessboard.init start) moves n ::
          (attempt_runs draws start (attempts + 1) moves n).tail := by
  rw [attempt_runs]
  rfl

/-- C4, amended: the implementation performs no bounds check on the start and
does not fail fast.  For a start outside the grid on which the `int` arithmetic
is defined and whose shift amount `row * 8 + col` lies in `0..63`, the
constructor yields a board whose current cell is that start and whose visited
set is the single bit with that index, so `get` reports exactly the grid cell
sharing the index; every run of `knights_tour` begins its first attempt on this
board with the empty path; when `valid_moves()` of the board is non-empty, the
first iteration applies the selected move, a grid cell not reported visited, and
the search continues from there; when it is empty, `knights_tour` returns the
empty path. -/
theorem init_out_of_bounds (start : pos_t) (_hv : start.valid = false)
    (_hd : start.int_defined = true)
    (h0 : 0 ≤ bit_index start) (h1 : bit_index start < 64) :
    (Chessboard.init start).current = start ∧
      (Chessboard.init start).traversed = 2 ^ (bit_index start).toNat ∧
      (∀ p : pos_t, p.valid = true →
        ((Chessboard.init start).get p = true ↔ bit_index p = bit_index start)) ∧
      (∀ draws : Nat → Nat, ∃ rest runs,
        attempt_runs draws start 10000 [] 0
          = ({ fuel := 64, chess := Chessboard.init start, moves := [], n := 0 } :: rest)
              :: runs) ∧
      (∀ draws : Nat → Nat, (Chessboard.init start).valid_moves.length ≠ 0 →
        (best_move (Chessboard.init start) (draws 0)).valid = true ∧
          (Chessboard.init start).get (best_move (Chessboard.init start) (draws 0)) = false ∧
          inner_loop draws start 64 (Chessboard.init start) [] 0
            = inner_loop draws start 63
                ((Chessboard.init start).set (best_move (Chessboard.init start) (draws 0)))
                [best_move (Chessboard.init start) (draws 0)] 1) ∧
      (∀ draws : Nat → Nat, (Chessboard.init start).valid_moves.length = 0 →
        knights_tour draws start = []) := by
  refine ⟨rfl, init_traversed start h0 h1, ?_, ?_, ?_, ?_⟩
  · intro p hp
    have hr := bit_index_range p hp
    rw [get_eq_testBit, Chessboard.init, set_testBit]
    simp only [Nat.zero_testBit, Bool.false_or, Bool.and_eq_true, decide_eq_true_eq]
    omega
  · intro draws
    refine ⟨(inner_states draws 64 (Chessboard.init start) [] 0).tail,
      (attempt_runs draws start 10000 [] 0).tail, ?_⟩
    rw [← inner_states_head draws 63 (Chessboard.init start) [] 0]
    exact attempt_runs_head draws start 9999 [] 0
  · intro draws hc
    have hb := best_move_mem_valid_moves (Chessboard.init start) (draws 0)
      ((valid_moves_ne_nil_iff _).1 hc)
    obtain ⟨_, hv, hg⟩ := (mem_valid_moves_from _ _ _).1 hb
    exact ⟨hv, hg, inner_loop_step draws start 63 (Chessboard.init start) [] 0 hc⟩
  · intro draws hc
    exact outer_loop_stuck_at_start draws start hc (init_not_successful start h0 h1) 10000 0

theorem init_out_of_bounds_witness :
    pos_t.valid ⟨0, 8⟩ = false ∧ pos_t.int_defined ⟨0, 8⟩ = true ∧
      (Chessboard.init ⟨0, 8⟩).valid_moves.length ≠ 0 ∧
      (Chessboard.init ⟨0, 8⟩).current = ⟨0, 8⟩ ∧
      (Chessboard.init ⟨0, 8⟩).traversed = 2 ^ (bit_index ⟨0, 8⟩).toNat ∧
      (best_move (Chessboard.init ⟨0, 8⟩) 0).valid = true ∧
      inner_loop (fun _ => 0) ⟨0, 8⟩ 64 (Chessboard.init ⟨0, 8⟩) [] 0
        = inner_loop (fun _ => 0) ⟨0, 8⟩ 63
            ((Chessboard.init ⟨0, 8⟩).set (best_move (Chessboard.init ⟨0, 8⟩) 0))
            [best_move (Chessboard.init ⟨0, 8⟩) 0] 1 :=
  have h := init_out_of_bounds ⟨0, 8⟩ (by decide) (by decide) (by decide) (by decide)
  have hc : (Chessboard.init ⟨0, 8⟩).valid_moves.length ≠ 0 := by decide
  ⟨by decide, by decide, hc, h.1, h.2.1,
    (h.2.2.2.2.1 (fun _ => 0) hc).1, (h.2.2.2.2.1 (fun _ => 0) hc).2.2⟩

end KnightsTour
